import Mathlib

/-!
Shallow embedding of the automated transcription system (src/main.py).

The program watches a directory for media files, waits for each file to
stop growing, extracts audio from video containers with ffmpeg, runs a
speech-to-text model, writes the transcript next to the source file and
records the file in a durable processed-files mapping.

Modelling choices:
  * paths are POSIX strings; Python dicts are association lists;
  * the external world (file sizes over poll ticks, ffmpeg success,
    transcription results) is an oracle record `Env`;
  * side effects are logged in an event trace inside the state `St`;
  * Python exceptions are `Except.error`;
  * real time is discretised: one loop iteration of `wait_for_download`
    advances one poll tick, and the returned counter is the number of
    sleeps performed, so elapsed seconds = counter * check_interval.
-/

/-- Python str.lower, applied character by character. -/
def strLower (s : String) : String := ⟨s.data.map Char.toLower⟩

/-- Python str.split(sep) for a one-character separator: splits a character
list at every occurrence of `sep`, keeping empty segments, never returning
an empty list of segments. -/
def splitOnChar (sep : Char) : List Char → List (List Char)
  | [] => [[]]
  | c :: cs =>
    let r := splitOnChar sep cs
    if c = sep then [] :: r
    else (c :: r.headD []) :: r.tail

/-- The last segment of `l` split at `sep`: Python s.split(sep)[-1].
Equals the whole list when `sep` does not occur. -/
def lastSeg (sep : Char) (l : List Char) : List Char :=
  (splitOnChar sep l).getLastD []

/-- Python pathlib Path(p).name: the last POSIX path component. -/
def pathName (p : String) : String := ⟨lastSeg '/' p.data⟩

/-- Python pathlib Path(p).suffix: the extension of the last component,
including the leading dot; empty when the name has no dot, starts with its
only dot, or ends in a dot (CPython condition 0 < i < len(name) - 1 on the
index i of the last dot). -/
def path_suffix (p : String) : String :=
  let n := (pathName p).data
  let t := n.reverse.takeWhile (fun c => c ≠ '.')
  if '.' ∈ n ∧ 0 < t.length ∧ t.length + 1 < n.length then
    ⟨'.' :: t.reverse⟩
  else ""

/-- Python pathlib Path(p).with_suffix(s): drop the current suffix from the
end of the path and append `s`. -/
def with_suffix (p s : String) : String :=
  ⟨p.data.take (p.data.length - (path_suffix p).data.length)⟩ ++ s

/-- Extension test shared by the scanner and the watcher:
s.split(".")[-1].lower() from main.py lines 89 and 100. -/
def extTest (s : String) : String := strLower ⟨lastSeg '.' s.data⟩

/-- SUPPORTED_FORMATS from main.py line 16 (a Python set; only membership
is ever used). -/
def SUPPORTED_FORMATS : List String :=
  ["mp3", "wav", "mp4", "mkv", "mov", "flv", "aac", "m4a"]

/-- The video container extensions tested in extract_audio (line 55). -/
def videoFormats : List String := [".mp4", ".mkv", ".mov", ".flv"]

/-- Association-list model of a Python dict: key membership. -/
def dictContains (m : List (String × String)) (k : String) : Bool :=
  m.any (fun p => p.1 = k)

/-- Association-list model of a Python dict: lookup. -/
def dictGet (m : List (String × String)) (k : String) : Option String :=
  (m.find? (fun p => p.1 = k)).map (fun p => p.2)

/-- Association-list model of a Python dict: d[k] = v. Updates the value in
place when the key is present, otherwise appends the new pair, preserving
Python dict insertion order. -/
def dictInsert (m : List (String × String)) (k v : String) :
    List (String × String) :=
  if dictContains m k then m.map (fun p => if p.1 = k then (k, v) else p)
  else m ++ [(k, v)]

/-- State of the durable record PROCESSED_FILES (processed_files.json):
missing, present but not valid JSON, or present with a parsed mapping. -/
inductive StateFile
  | absent
  | corrupt
  | wellFormed (m : List (String × String))
  deriving DecidableEq

/-- load_processed_files (main.py lines 18-22): returns {} when the file
does not exist, otherwise the outcome of json.load, which raises on a file
that is not valid JSON (there is no exception handler). The constructor of
`StateFile` abstracts the outcome of json.load on the raw file bytes. -/
def load_processed_files : StateFile → Except String (List (String × String))
  | StateFile.absent => Except.ok []
  | StateFile.corrupt => Except.error "JSONDecodeError"
  | StateFile.wellFormed m => Except.ok m

/-- save_processed_files (main.py lines 24-26): json.dump of the whole
mapping, overwriting the durable record. -/
def save_processed_files (m : List (String × String)) : StateFile :=
  StateFile.wellFormed m

/-- Observable side effects of one run, in program order. -/
inductive Ev
  | waitCheck (path : String)
  | ffmpeg (src dst : String)
  | transcribeCall (audio : String)
  | writeTxt (path enc text : String)
  | save (m : List (String × String))
  deriving DecidableEq

/-- Program state threaded through the pipeline: the visible filesystem
(path to content), the in-memory processed_files dict, the durable state
file, and the event trace. -/
structure St where
  fs : List (String × String)
  processed : List (String × String)
  disk : StateFile
  trace : List Ev
  deriving DecidableEq

/-- Oracles for the external world: `obs p n` is the size of file `p` at
poll tick `n` (none when the file does not exist), `ffmpegOk` tells whether
the ffmpeg subprocess for a given source exits with status 0, and
`transcribeRes` is the outcome of model.transcribe on an audio path. -/
structure Env where
  obs : String → Nat → Option Nat
  ffmpegOk : String → Bool
  transcribeRes : String → Except String String

/-- One-pass loop body of wait_for_download (main.py lines 37-50) with
explicit fuel. Iteration `i` starts at elapsed time i * check_interval;
the loop guard is elapsed < timeout. When the file is absent the loop
sleeps one interval and retries; otherwise it samples the size at tick i,
sleeps, samples at tick i + 1, and returns true on equality. The second
component of the result counts the sleeps performed. -/
def waitIter (obs : Nat → Option Nat) (timeout check_interval : Nat) :
    Nat → Nat → Bool × Nat
  | 0, i => (false, i)
  | fuel + 1, i =>
    if timeout ≤ i * check_interval then (false, i)
    else
      match obs i with
      | none => waitIter obs timeout check_interval fuel (i + 1)
      | some sz =>
        if obs (i + 1) = some sz then (true, i + 1)
        else waitIter obs timeout check_interval fuel (i + 1)

/-- wait_for_download (main.py lines 28-50). The fuel timeout / interval + 1
is enough for the guard to fire, so the fuelled loop equals the source
while-loop. -/
def wait_for_download (obs : Nat → Option Nat)
    (timeout check_interval : Nat) : Bool × Nat :=
  waitIter obs timeout check_interval (timeout / check_interval + 1) 0

/-- extract_audio (main.py lines 52-60): for a video/container suffix,
derive the .wav sibling; run ffmpeg only when it does not exist
(subprocess.run with check=True raises CalledProcessError on nonzero
exit); return the sibling. Other suffixes are returned unchanged. The
string "RIFF" stands for the produced audio bytes. -/
def extract_audio (env : Env) (file_path : String) (st : St) :
    St × Except String String :=
  if strLower (path_suffix file_path) ∈ videoFormats then
    if dictContains st.fs (with_suffix file_path ".wav") then
      (st, Except.ok (with_suffix file_path ".wav"))
    else
      if env.ffmpegOk file_path then
        ({ st with
            fs := dictInsert st.fs (with_suffix file_path ".wav") "RIFF",
            trace := st.trace ++
              [Ev.ffmpeg file_path (with_suffix file_path ".wav")] },
         Except.ok (with_suffix file_path ".wav"))
      else
        ({ st with trace := st.trace ++
            [Ev.ffmpeg file_path (with_suffix file_path ".wav")] },
         Except.error "CalledProcessError")
  else (st, Except.ok file_path)

/-- transcribe_file (main.py lines 62-83): skip when already processed;
wait for the download (defaults timeout=900, check_interval=5) and skip on
timeout; extract audio; transcribe; write the text to the .txt sibling of
the original path with encoding utf-8; record path -> transcript name in
processed_files and save the whole mapping. Exceptions from extraction or
transcription propagate as Except.error. -/
def transcribe_file (env : Env) (file_path : String) (st : St) :
    St × Except String Unit :=
  if dictContains st.processed file_path then (st, Except.ok ())
  else
    if (wait_for_download (env.obs file_path) 900 5).1 then
      match extract_audio env file_path
          { st with trace := st.trace ++ [Ev.waitCheck file_path] } with
      | (st2, Except.error e) => (st2, Except.error e)
      | (st2, Except.ok audio_path) =>
        match env.transcribeRes audio_path with
        | Except.error e =>
          ({ st2 with trace := st2.trace ++ [Ev.transcribeCall audio_path] },
           Except.error e)
        | Except.ok text =>
          ({ st2 with
              fs := dictInsert st2.fs (with_suffix file_path ".txt") text,
              processed := dictInsert st2.processed file_path
                (pathName (with_suffix file_path ".txt")),
              disk := save_processed_files (dictInsert st2.processed file_path
                (pathName (with_suffix file_path ".txt"))),
              trace := st2.trace ++
                [Ev.transcribeCall audio_path,
                 Ev.writeTxt (with_suffix file_path ".txt") "utf-8" text,
                 Ev.save (dictInsert st2.processed file_path
                   (pathName (with_suffix file_path ".txt")))] },
           Except.ok ())
    else
      ({ st with trace := st.trace ++ [Ev.waitCheck file_path] },
       Except.ok ())

/-- scan_existing_files (main.py lines 85-90): os.walk is abstracted as the
list of (root, filename) pairs it yields, in traversal order; each file
whose split(".")[-1].lower() is a supported format is fed to
transcribe_file with path os.path.join(root, file) = root ++ "/" ++ file.
An exception from transcribe_file aborts the walk. -/
def scan_existing_files (env : Env) (walk : List (String × String))
    (st : St) : St × Except String Unit :=
  match walk with
  | [] => (st, Except.ok ())
  | (root, file) :: rest =>
    if extTest file ∈ SUPPORTED_FORMATS then
      match transcribe_file env (root ++ "/" ++ file) st with
      | (st2, Except.ok _) => scan_existing_files env rest st2
      | (st2, Except.error e) => (st2, Except.error e)
    else scan_existing_files env rest st

/-- FileEventHandler.on_created (main.py lines 97-102): directory events
are ignored; otherwise the full event path is split on "." and the last
segment lowercased; supported paths are fed to transcribe_file. -/
def on_created (env : Env) (is_directory : Bool) (src_path : String)
    (st : St) : St × Except String Unit :=
  if is_directory then (st, Except.ok ())
  else
    if extTest src_path ∈ SUPPORTED_FORMATS then
      transcribe_file env src_path st
    else (st, Except.ok ())

/-- Number of transcript writes in a trace. -/
def countWrites (tr : List Ev) : Nat :=
  (tr.filter (fun e => match e with
    | Ev.writeTxt _ _ _ => true
    | _ => false)).length

/-- Number of ffmpeg invocations in a trace. -/
def countFfmpeg (tr : List Ev) : Nat :=
  (tr.filter (fun e => match e with
    | Ev.ffmpeg _ _ => true
    | _ => false)).length

/-- Ceiling division bounds: the least multiple of iv at or above t. -/
lemma ceilDiv_spec (t iv : Nat) (hiv : 0 < iv) :
    t ≤ ((t + iv - 1) / iv) * iv ∧ ((t + iv - 1) / iv) * iv < t + iv := by
  have h1 := Nat.div_add_mod (t + iv - 1) iv
  have h2 := Nat.mod_lt (t + iv - 1) hiv
  have h3 : ((t + iv - 1) / iv) * iv = iv * ((t + iv - 1) / iv) :=
    Nat.mul_comm _ _
  omega

/-- The ceiling quotient of t by iv is at most i exactly when i intervals
reach the timeout. -/
lemma ceilDiv_le_iff (t iv i : Nat) (hiv : 0 < iv) :
    (t + iv - 1) / iv ≤ i ↔ t ≤ i * iv := by
  obtain ⟨hl, hu⟩ := ceilDiv_spec t iv hiv
  constructor
  · intro h
    exact le_trans hl (Nat.mul_le_mul h (Nat.le_refl iv))
  · intro h
    by_contra hc
    push_neg at hc
    have h4 : (i + 1) * iv ≤ ((t + iv - 1) / iv) * iv :=
      Nat.mul_le_mul hc (Nat.le_refl iv)
    have h5 : (i + 1) * iv = i * iv + iv := Nat.succ_mul i iv
    omega

lemma ceil_le_div_succ (t iv : Nat) (hiv : 0 < iv) :
    (t + iv - 1) / iv ≤ t / iv + 1 := by
  rw [ceilDiv_le_iff t iv _ hiv]
  have h1 := Nat.div_add_mod t iv
  have h2 := Nat.mod_lt t hiv
  have h3 : (t / iv + 1) * iv = (t / iv) * iv + iv := Nat.succ_mul _ _
  have h4 : (t / iv) * iv = iv * (t / iv) := Nat.mul_comm _ _
  omega

/-- A file that changes size at every consecutive pair of samples makes the
loop run to the timeout guard and return false at iteration ceil(t/iv). -/
lemma waitIter_grow (t iv : Nat) (f : Nat → Nat) (hf : ∀ i, f (i + 1) ≠ f i)
    (hiv : 0 < iv) :
    ∀ fuel i, i ≤ (t + iv - 1) / iv → (t + iv - 1) / iv ≤ i + fuel →
      waitIter (fun n => some (f n)) t iv fuel i =
        (false, (t + iv - 1) / iv) := by
  intro fuel
  induction fuel with
  | zero =>
    intro i h1 h2
    have hie : i = (t + iv - 1) / iv := le_antisymm h1 (by simpa using h2)
    simp [waitIter, hie]
  | succ fuel ih =>
    intro i h1 h2
    by_cases hg : t ≤ i * iv
    · have hq : (t + iv - 1) / iv ≤ i := (ceilDiv_le_iff t iv i hiv).2 hg
      have hie : i = (t + iv - 1) / iv := le_antisymm h1 hq
      subst hie
      simp [waitIter, hg]
    · have hq : ¬ ((t + iv - 1) / iv ≤ i) := fun h =>
        hg ((ceilDiv_le_iff t iv i hiv).1 h)
      have h1' : i + 1 ≤ (t + iv - 1) / iv := Nat.lt_of_not_le hq
      have hne : ¬ (some (f (i + 1)) = some (f i)) := by simpa using hf i
      simp only [waitIter, if_neg hg]
      simp only [hne, if_false, if_neg hne]
      exact ih (i + 1) h1' (by omega)

/-- A file absent before tick k and of constant size s from tick k on is
declared stable at tick k + 1, provided the timeout is not yet reached. -/
lemma waitIter_stable (t iv k s : Nat) (hiv : 0 < iv) (hk : k * iv < t) :
    ∀ fuel i, i ≤ k → k + 1 ≤ i + fuel →
      waitIter (fun n => if n < k then none else some s) t iv fuel i =
        (true, k + 1) := by
  intro fuel
  induction fuel with
  | zero => intro i h1 h2; omega
  | succ fuel ih =>
    intro i h1 h2
    have hg : ¬ (t ≤ i * iv) := by
      have := Nat.mul_le_mul h1 (Nat.le_refl iv)
      omega
    by_cases hik : i < k
    · simp only [waitIter, if_neg hg, if_pos hik]
      exact ih (i + 1) (by omega) (by omega)
    · have hieq : i = k := by omega
      subst hieq
      simp [waitIter, if_neg hg]

lemma wait_grow (t iv : Nat) (f : Nat → Nat) (hf : ∀ i, f (i + 1) ≠ f i)
    (hiv : 0 < iv) :
    wait_for_download (fun n => some (f n)) t iv =
      (false, (t + iv - 1) / iv) := by
  apply waitIter_grow t iv f hf hiv (t / iv + 1) 0 (Nat.zero_le _)
  have := ceil_le_div_succ t iv hiv
  omega

lemma wait_stable (t iv k s : Nat) (hiv : 0 < iv) (hk : k * iv < t) :
    wait_for_download (fun n => if n < k then none else some s) t iv =
      (true, k + 1) := by
  apply waitIter_stable t iv k s hiv hk (t / iv + 1) 0 (Nat.zero_le _)
  have : k ≤ t / iv := (Nat.le_div_iff_mul_le hiv).2 (Nat.le_of_lt hk)
  omega

lemma wait_const (t iv s : Nat) (hiv : 0 < iv) (ht : 0 < t) :
    wait_for_download (fun _ => some s) t iv = (true, 1) := by
  have h := wait_stable t iv 0 s hiv (by simpa using ht)
  have he : (fun n : Nat => if n < 0 then none else some s) =
      (fun _ : Nat => some s) := by
    funext n; simp
  rw [he] at h
  exact h

lemma dictContains_insert_self (m : List (String × String)) (k v : String) :
    dictContains (dictInsert m k v) k = true := by
  unfold dictInsert
  by_cases h : dictContains m k
  · simp only [if_pos h]
    unfold dictContains at h ⊢
    rcases List.any_eq_true.1 h with ⟨p, hp, he⟩
    apply List.any_eq_true.2
    refine ⟨(k, v), List.mem_map.2 ⟨p, hp, ?_⟩, by simp⟩
    simp at he
    simp [he]
  · simp only [if_neg h]
    unfold dictContains
    apply List.any_eq_true.2
    exact ⟨(k, v), List.mem_append_right _ (by simp), by simp⟩

lemma dictGet_insert_self (m : List (String × String)) (k v : String) :
    dictGet (dictInsert m k v) k = some v := by
  unfold dictInsert
  by_cases h : dictContains m k
  · simp only [if_pos h]
    induction m with
    | nil => simp [dictContains] at h
    | cons a m ih =>
      by_cases ha : a.1 = k
      · simp [dictGet, List.find?, ha]
      · have h' : dictContains m k = true := by
          unfold dictContains at h ⊢
          rw [List.any_cons, Bool.or_eq_true] at h
          rcases h with h | h
          · exact absurd (of_decide_eq_true h) ha
          · exact h
        have := ih h'
        simpa [dictGet, List.find?, ha] using this
  · simp only [if_neg h]
    rw [Bool.not_eq_true] at h
    unfold dictContains at h
    have hn : m.find? (fun p => decide (p.1 = k)) = none :=
      List.find?_eq_none.2 (List.any_eq_false.1 h)
    unfold dictGet
    rw [List.find?_append, hn]
    simp [List.find?]

lemma filter_key_nil (m : List (String × String)) (k : String)
    (h : dictContains m k = false) :
    m.filter (fun p => p.1 = k) = [] := by
  unfold dictContains at h
  exact List.filter_eq_nil_iff.2 (List.any_eq_false.1 h)

lemma filter_insert_fresh (m : List (String × String)) (k v : String)
    (h : dictContains m k = false) :
    (dictInsert m k v).filter (fun p => p.1 = k) = [(k, v)] := by
  unfold dictInsert
  rw [if_neg (by simp [h])]
  rw [List.filter_append, filter_key_nil m k h]
  simp

/-- Effects of a successful full run of transcribe_file on a fresh path:
the entry is recorded, the durable file holds exactly the updated mapping,
the transcript content is on disk under the .txt sibling of the original
path, and the new trace segment ends with the write immediately followed
by the save, preceded only by the wait check, possible ffmpeg calls and
the transcription call. -/
def SuccessShape (fp : String) (st st' : St) : Prop :=
  ∃ audio text tl,
    st'.processed =
      dictInsert st.processed fp (pathName (with_suffix fp ".txt")) ∧
    st'.disk = save_processed_files st'.processed ∧
    dictGet st'.fs (with_suffix fp ".txt") = some text ∧
    st'.trace = st.trace ++ [Ev.waitCheck fp] ++ tl ++
      [Ev.transcribeCall audio,
       Ev.writeTxt (with_suffix fp ".txt") "utf-8" text,
       Ev.save st'.processed] ∧
    ∀ e ∈ tl, ∃ a b, e = Ev.ffmpeg a b

/-- extract_audio only touches the filesystem and appends only ffmpeg
events to the trace. -/
lemma extract_audio_frame (env : Env) (fp : String) (st : St) :
    (extract_audio env fp st).1.processed = st.processed ∧
    (extract_audio env fp st).1.disk = st.disk ∧
    ∃ tl, (extract_audio env fp st).1.trace = st.trace ++ tl ∧
      ∀ e ∈ tl, ∃ a b, e = Ev.ffmpeg a b := by
  unfold extract_audio
  split
  · split
    · exact ⟨rfl, rfl, [], by simp, by simp⟩
    · split
      · refine ⟨rfl, rfl, [Ev.ffmpeg fp (with_suffix fp ".wav")], rfl, ?_⟩
        intro e he
        simp at he
        exact ⟨fp, _, he⟩
      · refine ⟨rfl, rfl, [Ev.ffmpeg fp (with_suffix fp ".wav")], rfl, ?_⟩
        intro e he
        simp at he
        exact ⟨fp, _, he⟩
  · exact ⟨rfl, rfl, [], by simp, by simp⟩

/-- Exhaustive description of one transcribe_file invocation: skip because
already processed, skip because the readiness wait timed out, a propagated
exception (which leaves the processed set and the durable file untouched),
or a successful full run. -/
lemma transcribe_file_cases (env : Env) (fp : String) (st st' : St)
    (r : Except String Unit)
    (h : transcribe_file env fp st = (st', r)) :
    (dictContains st.processed fp = true ∧ st' = st ∧ r = Except.ok ()) ∨
    (dictContains st.processed fp = false ∧
      st' = { st with trace := st.trace ++ [Ev.waitCheck fp] } ∧
      r = Except.ok () ∧
      (wait_for_download (env.obs fp) 900 5).1 = false) ∨
    ((∃ e, r = Except.error e) ∧ st'.processed = st.processed ∧
      st'.disk = st.disk) ∨
    (dictContains st.processed fp = false ∧ r = Except.ok () ∧
      SuccessShape fp st st') := by
  unfold transcribe_file at h
  by_cases h0 : dictContains st.processed fp
  · rw [if_pos h0] at h
    injection h with h1 h2
    exact Or.inl ⟨h0, h1.symm, h2.symm⟩
  · rw [if_neg h0] at h
    rw [Bool.not_eq_true] at h0
    by_cases hw : (wait_for_download (env.obs fp) 900 5).1
    · rw [if_pos hw] at h
      rcases hE : extract_audio env fp
          { st with trace := st.trace ++ [Ev.waitCheck fp] } with ⟨st2, r2⟩
      obtain ⟨hp2, hd2, tl, htr2, htl⟩ := extract_audio_frame env fp
          { st with trace := st.trace ++ [Ev.waitCheck fp] }
      rw [hE] at h hp2 hd2 htr2
      cases r2 with
      | error e =>
        simp only at h
        injection h with h1 h2
        subst h1
        exact Or.inr (Or.inr (Or.inl ⟨⟨e, h2.symm⟩, hp2, hd2⟩))
      | ok audio_path =>
        simp only at h hp2 hd2 htr2
        cases hT : env.transcribeRes audio_path with
        | error e =>
          rw [hT] at h
          simp only at h
          injection h with h1 h2
          subst h1
          exact Or.inr (Or.inr (Or.inl ⟨⟨e, h2.symm⟩, hp2, hd2⟩))
        | ok text =>
          rw [hT] at h
          simp only at h
          injection h with h1 h2
          subst h1
          refine Or.inr (Or.inr (Or.inr ⟨h0, h2.symm, ?_⟩))
          refine ⟨audio_path, text, tl, ?_, rfl, ?_, ?_, htl⟩
          · simp only [hp2]
          · simpa using dictGet_insert_self st2.fs (with_suffix fp ".txt") text
          · simp only [htr2]
    · rw [if_neg hw] at h
      rw [Bool.not_eq_true] at hw
      injection h with h1 h2
      exact Or.inr (Or.inl ⟨h0, h1.symm, h2.symm, hw⟩)

lemma splitOnChar_ne_nil (sep : Char) (l : List Char) :
    splitOnChar sep l ≠ [] := by
  cases l with
  | nil => simp [splitOnChar]
  | cons c cs =>
    unfold splitOnChar
    split <;> simp

/-- A list without the separator splits into itself alone. -/
lemma splitOnChar_not_mem (sep : Char) (l : List Char) (h : sep ∉ l) :
    splitOnChar sep l = [l] := by
  induction l with
  | nil => rfl
  | cons c cs ih =>
    have hc : ¬ (c = sep) := fun he => h (he ▸ List.mem_cons_self c cs)
    have hcs : sep ∉ cs := fun hm => h (List.mem_cons_of_mem c hm)
    unfold splitOnChar
    rw [if_neg hc, ih hcs]
    rfl

lemma splitOnChar_len_two (sep : Char) (l : List Char) (h : sep ∈ l) :
    2 ≤ (splitOnChar sep l).length := by
  induction l with
  | nil => simp at h
  | cons c cs ih =>
    unfold splitOnChar
    by_cases hc : c = sep
    · rw [if_pos hc]
      have := splitOnChar_ne_nil sep cs
      have : 1 ≤ (splitOnChar sep cs).length := by
        cases he : splitOnChar sep cs with
        | nil => exact absurd he this
        | cons a as => simp
      simpa using this
    · rw [if_neg hc]
      have hcs : sep ∈ cs := by
        rcases List.mem_cons.1 h with he | hm
        · exact absurd he.symm hc
        · exact hm
      have h2 := ih hcs
      have hne := splitOnChar_ne_nil sep cs
      cases he : splitOnChar sep cs with
      | nil => exact absurd he hne
      | cons a as =>
        rw [he] at h2
        simpa using h2

lemma getLastD_irrel {α : Type} (l : List α) (h : l ≠ []) (a b : α) :
    l.getLastD a = l.getLastD b := by
  cases l with
  | nil => exact absurd rfl h
  | cons x t => rw [List.getLastD_cons, List.getLastD_cons]

/-- A failing element inside the left part stops takeWhile there. -/
lemma takeWhile_append_stop (p : Char → Bool) (xs ys : List Char)
    (h : ∃ a, a ∈ xs ∧ p a = false) :
    (xs ++ ys).takeWhile p = xs.takeWhile p := by
  rw [List.takeWhile_append]
  rw [if_neg]
  intro hl
  have heq : xs.takeWhile p = xs := ( List.takeWhile_prefix p).eq_of_length hl
  rcases h with ⟨a, ha, hpa⟩
  have hall : xs.all p = true := heq ▸ List.all_takeWhile
  have := List.all_eq_true.1 hall a ha
  simp [hpa] at this

/-- A failing last element never survives takeWhile. -/
lemma takeWhile_append_last_neg (p : Char → Bool) (xs : List Char)
    (a : Char) (ha : p a = false) :
    (xs ++ [a]).takeWhile p = xs.takeWhile p := by
  rw [List.takeWhile_append]
  split
  · rename_i hl
    have heq : xs.takeWhile p = xs := ( List.takeWhile_prefix p).eq_of_length hl
    simp [List.takeWhile_cons, ha, heq]
  · rfl


/-- Python s.split(sep)[-1] equals the reversed longest sep-free suffix:
the bridge between the split-based definition and takeWhile reasoning. -/
lemma lastSeg_eq_takeWhile (sep : Char) (l : List Char) :
    lastSeg sep l = (l.reverse.takeWhile (fun c => c ≠ sep)).reverse := by
  induction l with
  | nil => rfl
  | cons c cs ih =>
    unfold lastSeg at ih ⊢
    have h2 : (c :: cs).reverse = cs.reverse ++ [c] := by simp
    by_cases hc : c = sep
    · subst hc
      unfold splitOnChar
      rw [if_pos rfl]
      rw [List.getLastD_cons, ih, h2,
        takeWhile_append_last_neg _ _ _ (by simp)]
    · unfold splitOnChar
      rw [if_neg hc]
      by_cases hm : sep ∈ cs
      · obtain ⟨r0, rt, he⟩ : ∃ r0 rt, splitOnChar sep cs = r0 :: rt := by
          cases hsp : splitOnChar sep cs with
          | nil => exact absurd hsp (splitOnChar_ne_nil sep cs)
          | cons a as => exact ⟨a, as, rfl⟩
        have hrt : rt ≠ [] := by
          have hlen := splitOnChar_len_two sep cs hm
          rw [he] at hlen
          cases rt with
          | nil => simp at hlen
          | cons x t => simp
        rw [he]
        simp only [List.headD_cons, List.tail_cons]
        rw [List.getLastD_cons, getLastD_irrel rt hrt (c :: r0) []]
        rw [he, List.getLastD_cons, getLastD_irrel rt hrt r0 []] at ih
        rw [ih, h2]
        rw [takeWhile_append_stop _ _ _ ⟨sep, by simpa using hm, by simp⟩]
      · rw [splitOnChar_not_mem sep cs hm]
        simp only [List.headD_cons, List.tail_cons]
        have hall : ∀ a ∈ cs.reverse, (fun x => decide (x ≠ sep)) a = true := by
          intro a ha
          have ha2 : a ∈ cs := List.mem_reverse.1 ha
          have hane : a ≠ sep := fun hEq => hm (hEq ▸ ha2)
          simpa using hane
        rw [h2, List.takeWhile_append_of_pos hall]
        have hc2 : ([c] : List Char).takeWhile (fun x => decide (x ≠ sep)) =
            [c] := by
          rw [List.takeWhile_cons_of_pos (by simpa using hc)]
          rfl
        rw [hc2]
        simp

lemma takeWhile_all (p : Char → Bool) (l : List Char)
    (h : ∀ a ∈ l, p a = true) : l.takeWhile p = l := by
  have h2 := @List.takeWhile_append_of_pos _ p l [] h
  simpa using h2

/-- Without a dot in the string, the extension test returns the whole
string lowercased. -/
lemma extTest_no_dot (s : String) (h : '.' ∉ s.data) :
    extTest s = strLower s := by
  unfold extTest
  have hseg : lastSeg '.' s.data = s.data := by
    rw [lastSeg_eq_takeWhile]
    have hall : ∀ a ∈ s.data.reverse, (fun c => decide (c ≠ '.')) a = true := by
      intro a ha
      have ha2 : a ∈ s.data := List.mem_reverse.1 ha
      have hane : a ≠ '.' := fun hEq => h (hEq ▸ ha2)
      simpa using hane
    rw [takeWhile_all _ _ hall]
    simp
  rw [hseg]

/-- When the last path component contains a dot, the watcher extension test
on the joined path agrees with the test on the component alone. -/
lemma extTest_join_of_dot (dir name : String) (h : '.' ∈ name.data) :
    extTest (dir ++ "/" ++ name) = extTest name := by
  have hdata : (dir ++ "/" ++ name).data = dir.data ++ ['/'] ++ name.data := by
    rw [String.data_append, String.data_append]
  have hseg : lastSeg '.' (dir ++ "/" ++ name).data =
      lastSeg '.' name.data := by
    rw [hdata, lastSeg_eq_takeWhile, lastSeg_eq_takeWhile]
    have hrev : (dir.data ++ ['/'] ++ name.data).reverse =
        name.data.reverse ++ ('/' :: dir.data.reverse) := by
      simp
    rw [hrev]
    rw [takeWhile_append_stop _ _ _ ⟨'.', by simpa using h, by simp⟩]
  unfold extTest
  rw [hseg]

/-- When the last path component has no dot, the string tested by the
watcher contains the path separator. -/
lemma slash_mem_extTest_join (dir name : String) (h : '.' ∉ name.data) :
    '/' ∈ (extTest (dir ++ "/" ++ name)).data := by
  have hdata : (dir ++ "/" ++ name).data = dir.data ++ ['/'] ++ name.data := by
    rw [String.data_append, String.data_append]
  show '/' ∈ (lastSeg '.' (dir ++ "/" ++ name).data).map Char.toLower
  have hall : ∀ a ∈ name.data.reverse,
      (fun c => decide (c ≠ '.')) a = true := by
    intro a ha
    have ha2 : a ∈ name.data := List.mem_reverse.1 ha
    have hane : a ≠ '.' := fun hEq => h (hEq ▸ ha2)
    simpa using hane
  have hrev : (dir.data ++ ['/'] ++ name.data).reverse =
      name.data.reverse ++ ('/' :: dir.data.reverse) := by
    simp
  have hseg : lastSeg '.' (dir ++ "/" ++ name).data =
      (name.data.reverse ++
        ('/' :: (dir.data.reverse.takeWhile (fun c => c ≠ '.')))).reverse := by
    rw [hdata, lastSeg_eq_takeWhile, hrev,
      List.takeWhile_append_of_pos hall,
      List.takeWhile_cons_of_pos (by simp)]
  rw [hseg]
  apply List.mem_map.2
  refine ⟨'/', ?_, by decide⟩
  apply List.mem_reverse.2
  exact List.mem_append_right _ (List.mem_cons_self _ _)

/-- No supported format contains a slash. -/
lemma not_supported_of_slash (s : String) (h : '/' ∈ s.data) :
    s ∉ SUPPORTED_FORMATS := by
  intro hs
  unfold SUPPORTED_FORMATS at hs
  simp only [List.mem_cons, List.not_mem_nil, or_false] at hs
  rcases hs with h1 | h1 | h1 | h1 | h1 | h1 | h1 | h1 <;>
    (subst h1; revert h; decide)

/-- Concrete demo oracle used by witnesses: every file has constant size
100, ffmpeg succeeds and transcription yields a fixed text. -/
def envDemo : Env :=
  { obs := fun _ _ => some 100,
    ffmpegOk := fun _ => true,
    transcribeRes := fun _ => Except.ok "hello world" }

/-- Demo oracle whose ffmpeg invocation always fails. -/
def envFfmpegFail : Env :=
  { obs := fun _ _ => some 100,
    ffmpegOk := fun _ => false,
    transcribeRes := fun _ => Except.ok "hello world" }

/-- Fresh start state for witnesses. -/
def st0 : St :=
  { fs := [], processed := [], disk := StateFile.absent, trace := [] }

/-- State after the demo run of transcribe_file on ./media/clip.mp3. -/
def st1Demo : St :=
  { fs := [("./media/clip.txt", "hello world")],
    processed := [("./media/clip.mp3", "clip.txt")],
    disk := StateFile.wellFormed [("./media/clip.mp3", "clip.txt")],
    trace := [Ev.waitCheck "./media/clip.mp3",
              Ev.transcribeCall "./media/clip.mp3",
              Ev.writeTxt "./media/clip.txt" "utf-8" "hello world",
              Ev.save [("./media/clip.mp3", "clip.txt")]] }

/-- State after the demo run of extract_audio on ./media/video.mp4. -/
def stExtrDemo : St :=
  { fs := [("./media/video.wav", "RIFF")], processed := [],
    disk := StateFile.absent,
    trace := [Ev.ffmpeg "./media/video.mp4" "./media/video.wav"] }

/-- C3: readiness detection. With poll tick semantics (one sleep per tick,
elapsed = sleeps * interval): a file that exists with static size from the
first check yields true after exactly one sleep; a file whose size differs
at every consecutive pair of samples yields false after ceil(t/i) sleeps,
an elapsed time in [timeout, timeout + interval); a file absent for the
first k ticks (one sleep per absent iteration, then retry) and static
afterwards yields true after k + 1 sleeps. -/
theorem claim_C3_readiness_detection (timeout interval : Nat)
    (hiv : 0 < interval) (ht : 0 < timeout) :
    (∀ sz, wait_for_download (fun _ => some sz) timeout interval =
      (true, 1)) ∧
    (∀ f : Nat → Nat, (∀ i, f (i + 1) ≠ f i) →
      wait_for_download (fun n => some (f n)) timeout interval =
        (false, (timeout + interval - 1) / interval) ∧
      timeout ≤ ((timeout + interval - 1) / interval) * interval ∧
      ((timeout + interval - 1) / interval) * interval <
        timeout + interval) ∧
    (∀ k sz, k * interval < timeout →
      wait_for_download (fun n => if n < k then none else some sz)
        timeout interval = (true, k + 1)) :=
  ⟨fun sz => wait_const timeout interval sz hiv ht,
   fun f hf => ⟨wait_grow timeout interval f hf hiv,
     (ceilDiv_spec timeout interval hiv).1,
     (ceilDiv_spec timeout interval hiv).2⟩,
   fun k sz hk => wait_stable timeout interval k sz hiv hk⟩

theorem claim_C3_witness :
    wait_for_download (fun _ => some 42) 900 5 = (true, 1) ∧
    wait_for_download (fun n => some n) 900 5 = (false, 180) ∧
    wait_for_download (fun n => if n < 7 then none else some 3) 900 5 =
      (true, 8) := by
  refine ⟨(claim_C3_readiness_detection 900 5 (by decide) (by decide)).1 42,
    ?_,
    (claim_C3_readiness_detection 900 5 (by decide) (by decide)).2.2 7 3
      (by decide)⟩
  have h := ((claim_C3_readiness_detection 900 5 (by decide)
    (by decide)).2.1 (fun n => n) (fun i => Nat.succ_ne_self i)).1
  exact h.trans (by decide)

/-- C4 counterexample: with a present but corrupt durable record,
load_processed_files propagates the JSON decode error to the caller
instead of returning a mapping. -/
theorem claim_C4_counterexample :
    load_processed_files StateFile.corrupt =
      Except.error "JSONDecodeError" := rfl

/-- C4 amended: the load operation returns the empty mapping when the
durable record is absent and the parsed mapping when it is well-formed,
but a present-yet-unparsable record raises to the caller; only the absent
case is treated as nothing processed yet. -/
theorem claim_C4_load_amended :
    load_processed_files StateFile.absent = Except.ok [] ∧
    (∀ m, load_processed_files (StateFile.wellFormed m) = Except.ok m) ∧
    load_processed_files StateFile.corrupt =
      Except.error "JSONDecodeError" :=
  ⟨rfl, fun _ => rfl, rfl⟩

/-- C6: extract_audio returns the input unchanged with no ffmpeg call for
a non-video suffix; for a video suffix it returns the .wav sibling, with
no ffmpeg call when the sibling exists and exactly one call producing the
sibling otherwise. -/
theorem claim_C6_normalize_behavior (env : Env) (fp : String) (st : St) :
    (strLower (path_suffix fp) ∉ videoFormats →
      extract_audio env fp st = (st, Except.ok fp)) ∧
    (strLower (path_suffix fp) ∈ videoFormats →
      dictContains st.fs (with_suffix fp ".wav") = true →
      extract_audio env fp st = (st, Except.ok (with_suffix fp ".wav"))) ∧
    (strLower (path_suffix fp) ∈ videoFormats →
      dictContains st.fs (with_suffix fp ".wav") = false →
      env.ffmpegOk fp = true →
      extract_audio env fp st =
        ({ st with
            fs := dictInsert st.fs (with_suffix fp ".wav") "RIFF",
            trace := st.trace ++ [Ev.ffmpeg fp (with_suffix fp ".wav")] },
         Except.ok (with_suffix fp ".wav"))) := by
  refine ⟨fun h => ?_, fun h hc => ?_, fun h hc hok => ?_⟩
  · unfold extract_audio
    rw [if_neg h]
  · unfold extract_audio
    rw [if_pos h, if_pos hc]
  · unfold extract_audio
    rw [if_pos h, if_neg (by simp [hc]), if_pos hok]

theorem claim_C6_witness :
    extract_audio envDemo "./media/video.mp4" st0 =
      ({ st0 with
          fs := dictInsert st0.fs (with_suffix "./media/video.mp4" ".wav")
            "RIFF",
          trace := st0.trace ++ [Ev.ffmpeg "./media/video.mp4"
            (with_suffix "./media/video.mp4" ".wav")] },
       Except.ok (with_suffix "./media/video.mp4" ".wav")) ∧
    extract_audio envDemo "./media/song.mp3" st0 =
      (st0, Except.ok "./media/song.mp3") :=
  ⟨(claim_C6_normalize_behavior envDemo "./media/video.mp4" st0).2.2
      (by decide) (by decide) rfl,
   (claim_C6_normalize_behavior envDemo "./media/song.mp3" st0).1
      (by decide)⟩

/-- C7: extraction idempotence. When a call to extract_audio on a video
path returns normally, its result is the .wav sibling, a second call is
the identity (it finds the sibling on disk and skips ffmpeg), and at most
one ffmpeg invocation was added in total. -/
theorem claim_C7_extract_idempotent (env : Env) (fp : String) (st st1 : St)
    (p : String) (hv : strLower (path_suffix fp) ∈ videoFormats)
    (h : extract_audio env fp st = (st1, Except.ok p)) :
    p = with_suffix fp ".wav" ∧
    extract_audio env fp st1 = (st1, Except.ok p) ∧
    countFfmpeg st1.trace ≤ countFfmpeg st.trace + 1 := by
  unfold extract_audio at h
  rw [if_pos hv] at h
  by_cases hc : dictContains st.fs (with_suffix fp ".wav")
  · rw [if_pos hc] at h
    injection h with h1 h2
    subst h1
    injection h2 with h2
    refine ⟨h2.symm, ?_, by omega⟩
    unfold extract_audio
    rw [if_pos hv, if_pos hc, h2]
  · rw [if_neg hc] at h
    by_cases hok : env.ffmpegOk fp
    · rw [if_pos hok] at h
      injection h with h1 h2
      injection h2 with h2
      subst h1
      have hc2 : dictContains ({ st with
          fs := dictInsert st.fs (with_suffix fp ".wav") "RIFF",
          trace := st.trace ++
            [Ev.ffmpeg fp (with_suffix fp ".wav")] } : St).fs
          (with_suffix fp ".wav") = true :=
        dictContains_insert_self st.fs (with_suffix fp ".wav") "RIFF"
      refine ⟨h2.symm, ?_, ?_⟩
      · unfold extract_audio
        rw [if_pos hv, if_pos hc2, h2]
      · simp [countFfmpeg, List.filter_append]
    · rw [if_neg hok] at h
      injection h with h1 h2
      exact Except.noConfusion h2

theorem claim_C7_witness :
    "./media/video.wav" = with_suffix "./media/video.mp4" ".wav" ∧
    extract_audio envDemo "./media/video.mp4" stExtrDemo =
      (stExtrDemo, Except.ok "./media/video.wav") ∧
    countFfmpeg stExtrDemo.trace ≤ countFfmpeg st0.trace + 1 :=
  claim_C7_extract_idempotent envDemo "./media/video.mp4" st0 stExtrDemo
    "./media/video.wav" (by decide) (by rfl)

/-- C1: idempotence of the orchestrator. A path already in the processed
set makes transcribe_file return at once with no wait, no extraction, no
transcription, no write and no state change; consequently, after a first
invocation on a fresh, size-stable path that completes and records the
path, a second invocation is a strict no-op and the two invocations
together produced exactly one transcript write and exactly one
processed-set entry for the path. -/
theorem claim_C1_orchestrator_idempotent (env : Env) (fp : String)
    (st st1 : St) (sz : Nat) :
    (dictContains st.processed fp = true →
      transcribe_file env fp st = (st, Except.ok ())) ∧
    ((∀ n, env.obs fp n = some sz) →
      dictContains st.processed fp = false →
      transcribe_file env fp st = (st1, Except.ok ()) →
      transcribe_file env fp st1 = (st1, Except.ok ()) ∧
      countWrites st1.trace = countWrites st.trace + 1 ∧
      (st1.processed.filter (fun q => q.1 = fp)).length = 1) := by
  constructor
  · intro h0
    unfold transcribe_file
    rw [if_pos h0]
  · intro hobs h0 h
    have hwait : (wait_for_download (env.obs fp) 900 5).1 = true := by
      have he : env.obs fp = fun _ => some sz := funext hobs
      rw [he, wait_const 900 5 sz (by decide) (by decide)]
    rcases transcribe_file_cases env fp st st1 _ h with
      ⟨hc, _, _⟩ | ⟨_, _, _, hw⟩ | ⟨⟨e, he⟩, _, _⟩ | ⟨_, _, hshape⟩
    · rw [h0] at hc
      cases hc
    · rw [hwait] at hw
      cases hw
    · exact Except.noConfusion he
    · obtain ⟨audio, text, tl, hproc, hdisk, hget, htrace, htl⟩ := hshape
      have hcontains : dictContains st1.processed fp = true := by
        rw [hproc]
        exact dictContains_insert_self _ _ _
      refine ⟨?_, ?_, ?_⟩
      · unfold transcribe_file
        rw [if_pos hcontains]
      · rw [htrace]
        unfold countWrites
        rw [List.filter_append, List.filter_append, List.filter_append]
        have htl0 : tl.filter (fun e => match e with
            | Ev.writeTxt _ _ _ => true
            | _ => false) = [] := by
          apply List.filter_eq_nil_iff.2
          intro e he2
          obtain ⟨a, b, hab⟩ := htl e he2
          subst hab
          simp
        rw [htl0]
        simp
      · rw [hproc, filter_insert_fresh st.processed fp _ h0]
        rfl

theorem claim_C1_witness :
    transcribe_file envDemo "./media/clip.mp3" st1Demo =
      (st1Demo, Except.ok ()) ∧
    countWrites st1Demo.trace = countWrites st0.trace + 1 ∧
    (st1Demo.processed.filter
      (fun q => q.1 = "./media/clip.mp3")).length = 1 :=
  (claim_C1_orchestrator_idempotent envDemo "./media/clip.mp3" st0 st1Demo
    100).2 (fun _ => rfl) rfl (by rfl)

/-- C2: ordering of effects. Whenever an invocation of transcribe_file
changes the in-memory processed set at all, the invocation returned
normally on a fresh path and ran the full success path: the new trace
segment contains the transcript write immediately followed by the save of
the updated mapping as its last two events, everything before the write in
that segment is the wait check, ffmpeg calls and the transcription call
(no write, no save), the recorded entry maps the path to the transcript
name and the durable file equals the saved mapping when the call returns.
Contrapositively, no entry is ever recorded without the preceding
successful transcript write. -/
theorem claim_C2_write_record_save_order (env : Env) (fp : String)
    (st st1 : St) (r : Except String Unit)
    (h : transcribe_file env fp st = (st1, r))
    (hch : st1.processed ≠ st.processed) :
    r = Except.ok () ∧ dictContains st.processed fp = false ∧
    SuccessShape fp st st1 := by
  rcases transcribe_file_cases env fp st st1 r h with
    ⟨_, hst, hr⟩ | ⟨_, hst, hr, _⟩ | ⟨_, hp, _⟩ | ⟨h0, hr, hshape⟩
  · subst hst
    exact absurd rfl hch
  · subst hst
    exact absurd rfl hch
  · exact absurd hp hch
  · exact ⟨hr, h0, hshape⟩

theorem claim_C2_witness :
    (Except.ok () : Except String Unit) = Except.ok () ∧
    dictContains st0.processed "./media/clip.mp3" = false ∧
    SuccessShape "./media/clip.mp3" st0 st1Demo :=
  claim_C2_write_record_save_order envDemo "./media/clip.mp3" st0 st1Demo
    (Except.ok ()) (by rfl) (by decide)

/-- C5: failure propagation. Any exception from extraction or
transcription leaves transcribe_file as an error result with the processed
set and durable state file unchanged; a failing ffmpeg run on a fresh
stable video path surfaces as the CalledProcessError, and a failing
transcription on a fresh stable non-video path surfaces as that error. -/
theorem claim_C5_failure_propagation (env : Env) (fp : String) (st : St) :
    (∀ st1 e, transcribe_file env fp st = (st1, Except.error e) →
      st1.processed = st.processed ∧ st1.disk = st.disk) ∧
    (dictContains st.processed fp = false →
      (wait_for_download (env.obs fp) 900 5).1 = true →
      strLower (path_suffix fp) ∈ videoFormats →
      dictContains st.fs (with_suffix fp ".wav") = false →
      env.ffmpegOk fp = false →
      (transcribe_file env fp st).2 = Except.error "CalledProcessError") ∧
    (∀ e, dictContains st.processed fp = false →
      (wait_for_download (env.obs fp) 900 5).1 = true →
      strLower (path_suffix fp) ∉ videoFormats →
      env.transcribeRes fp = Except.error e →
      (transcribe_file env fp st).2 = Except.error e) := by
  refine ⟨?_, ?_, ?_⟩
  · intro st1 e h
    rcases transcribe_file_cases env fp st st1 _ h with
      ⟨_, _, hr⟩ | ⟨_, _, hr, _⟩ | ⟨_, hp, hd⟩ | ⟨_, hr, _⟩
    · exact Except.noConfusion hr
    · exact Except.noConfusion hr
    · exact ⟨hp, hd⟩
    · exact Except.noConfusion hr
  · intro h0 hw hv hc hok
    unfold transcribe_file
    rw [if_neg (by simp [h0]), if_pos hw]
    have hE : extract_audio env fp
        { st with trace := st.trace ++ [Ev.waitCheck fp] } =
        ({ st with trace := (st.trace ++ [Ev.waitCheck fp]) ++
            [Ev.ffmpeg fp (with_suffix fp ".wav")] },
         Except.error "CalledProcessError") := by
      unfold extract_audio
      rw [if_pos hv, if_neg (by simp [hc]), if_neg (by simp [hok])]
    rw [hE]
  · intro e h0 hw hv hT
    unfold transcribe_file
    rw [if_neg (by simp [h0]), if_pos hw]
    have hE : extract_audio env fp
        { st with trace := st.trace ++ [Ev.waitCheck fp] } =
        ({ st with trace := st.trace ++ [Ev.waitCheck fp] },
         Except.ok fp) := by
      unfold extract_audio
      rw [if_neg hv]
    simp only [hE, hT]

theorem claim_C5_witness :
    (transcribe_file envFfmpegFail "./media/video.mp4" st0).2 =
      Except.error "CalledProcessError" :=
  (claim_C5_failure_propagation envFfmpegFail "./media/video.mp4" st0).2.1
    rfl (by rfl) (by decide) rfl rfl

/-- C8: the transcript is written to the .txt sibling derived from the
original input path (not the audio path), with encoding utf-8, and after
the call that path maps to the written text on the filesystem regardless
of what was there before (full overwrite); the processed-set entry maps
the original path to the transcript file name, and the durable file holds
the saved mapping. -/
theorem claim_C8_transcript_write (env : Env) (fp : String) (st st1 : St)
    (h : transcribe_file env fp st = (st1, Except.ok ()))
    (h0 : dictContains st.processed fp = false)
    (h1 : dictContains st1.processed fp = true) :
    dictGet st1.processed fp = some (pathName (with_suffix fp ".txt")) ∧
    ∃ text, dictGet st1.fs (with_suffix fp ".txt") = some text ∧
      Ev.writeTxt (with_suffix fp ".txt") "utf-8" text ∈ st1.trace ∧
      st1.disk = save_processed_files st1.processed := by
  rcases transcribe_file_cases env fp st st1 _ h with
    ⟨hc, _, _⟩ | ⟨_, hst, _, _⟩ | ⟨⟨e, he⟩, _, _⟩ | ⟨_, _, hshape⟩
  · rw [h0] at hc
    cases hc
  · subst hst
    have h2 : dictContains st.processed fp = true := h1
    rw [h0] at h2
    cases h2
  · exact Except.noConfusion he
  · obtain ⟨audio, text, tl, hproc, hdisk, hget, htrace, htl⟩ := hshape
    refine ⟨?_, text, hget, ?_, hdisk⟩
    · rw [hproc]
      exact dictGet_insert_self _ _ _
    · rw [htrace]
      simp

theorem claim_C8_witness :
    dictGet st1Demo.processed "./media/clip.mp3" =
      some (pathName (with_suffix "./media/clip.mp3" ".txt")) ∧
    ∃ text, dictGet st1Demo.fs (with_suffix "./media/clip.mp3" ".txt") =
        some text ∧
      Ev.writeTxt (with_suffix "./media/clip.mp3" ".txt") "utf-8" text ∈
        st1Demo.trace ∧
      st1Demo.disk = save_processed_files st1Demo.processed :=
  claim_C8_transcript_write envDemo "./media/clip.mp3" st0 st1Demo
    (by rfl) rfl (by rfl)

/-- Files whose extension test fails contribute nothing to the scan: a
walk behaves exactly like the walk with those files removed. -/
lemma scan_filter (env : Env) :
    ∀ walk st, scan_existing_files env walk st =
      scan_existing_files env
        (walk.filter (fun rf => extTest rf.2 ∈ SUPPORTED_FORMATS)) st := by
  intro walk
  induction walk with
  | nil => intro st; rfl
  | cons rf rest ih =>
    intro st
    obtain ⟨root, file⟩ := rf
    simp only [List.filter_cons]
    by_cases hs : extTest file ∈ SUPPORTED_FORMATS
    · rw [if_pos (by simpa using hs)]
      simp only [scan_existing_files]
      rw [if_pos hs, if_pos hs]
      rcases ht : transcribe_file env (root ++ "/" ++ file) st with ⟨st2, r⟩
      cases r with
      | ok u => exact ih st2
      | error e => rfl
    · rw [if_neg (by simpa using hs)]
      simp only [scan_existing_files]
      rw [if_neg hs]
      exact ih st

/-- C9: a file whose extension test fails is ignored entirely. The scan of
any walk equals the scan of the walk restricted to supported files; a
single unsupported file makes the scan a no-op; a creation event for a
path whose last component fails the test is a no-op regardless of the
directory part; directory events are always ignored. No orchestrator
effect (wait, extraction, transcription, write, record) occurs in the
ignored cases since the state is returned unchanged. -/
theorem claim_C9_unsupported_ignored (env : Env) (st : St) :
    (∀ walk, scan_existing_files env walk st =
      scan_existing_files env
        (walk.filter (fun rf => extTest rf.2 ∈ SUPPORTED_FORMATS)) st) ∧
    (∀ root file, extTest file ∉ SUPPORTED_FORMATS →
      scan_existing_files env [(root, file)] st = (st, Except.ok ())) ∧
    (∀ dir name, extTest name ∉ SUPPORTED_FORMATS →
      on_created env false (dir ++ "/" ++ name) st = (st, Except.ok ())) ∧
    (∀ p, on_created env true p st = (st, Except.ok ())) := by
  refine ⟨fun walk => scan_filter env walk st, ?_, ?_, fun p => rfl⟩
  · intro root file hs
    simp only [scan_existing_files]
    rw [if_neg hs]
  · intro dir name hs
    unfold on_created
    by_cases hd : '.' ∈ name.data
    · rw [if_neg (by simp), if_neg ?hns]
      case hns =>
        rw [extTest_join_of_dot dir name hd]
        exact hs
    · have hsl : '/' ∈ (extTest (dir ++ "/" ++ name)).data :=
        slash_mem_extTest_join dir name hd
      rw [if_neg (by simp), if_neg (not_supported_of_slash _ hsl)]

theorem claim_C9_witness :
    scan_existing_files envDemo [("./media", "notes.pdf")] st0 =
      (st0, Except.ok ()) ∧
    on_created envDemo false ("./media" ++ "/" ++ "notes.pdf") st0 =
      (st0, Except.ok ()) ∧
    on_created envDemo true "./media/sub" st0 = (st0, Except.ok ()) :=
  ⟨(claim_C9_unsupported_ignored envDemo st0).2.1 "./media" "notes.pdf"
      (by decide),
   (claim_C9_unsupported_ignored envDemo st0).2.2.1 "./media" "notes.pdf"
      (by decide),
   (claim_C9_unsupported_ignored envDemo st0).2.2.2 "./media/sub"⟩

/-- C10 counterexample: the claim fails for the watch path. For the
extensionless file named mp3 at event path ./media/mp3, the watcher tests
the substring after the last dot of the full path, which is /media/mp3,
not a supported format, so on_created ignores the file, while a direct
orchestrator invocation would have produced effects (nonempty trace) and
the scanner test on the bare name mp3 does classify it as supported. -/
theorem claim_C10_counterexample :
    extTest "mp3" ∈ SUPPORTED_FORMATS ∧
    extTest "./media/mp3" = "/media/mp3" ∧
    extTest "./media/mp3" ∉ SUPPORTED_FORMATS ∧
    on_created envDemo false "./media/mp3" st0 = (st0, Except.ok ()) ∧
    (transcribe_file envDemo "./media/mp3" st0).1.trace ≠ [] := by
  refine ⟨by decide, by decide, by decide, by rfl, ?_⟩
  intro h
  rw [show transcribe_file envDemo "./media/mp3" st0 =
    ({ fs := [("./media/mp3.txt", "hello world")],
       processed := [("./media/mp3", "mp3.txt")],
       disk := StateFile.wellFormed [("./media/mp3", "mp3.txt")],
       trace := [Ev.waitCheck "./media/mp3",
                 Ev.transcribeCall "./media/mp3",
                 Ev.writeTxt "./media/mp3.txt" "utf-8" "hello world",
                 Ev.save [("./media/mp3", "mp3.txt")]] },
     Except.ok ()) from rfl] at h
  cases h

/-- C10 amended: the scanner splits the bare file name on dots, so for a
name without a dot its test is the lowercased whole name and a file named
mp3 is fed to the orchestrator by the scan path; the watcher applies the
same split to the full event path, so for a last component without a dot
its test spans the directory separator and the event is ignored, whatever
the directory part. -/
theorem claim_C10_ext_test_amended (env : Env) (st : St) :
    (∀ file, '.' ∉ file.data → extTest file = strLower file) ∧
    (∀ root file, extTest file ∈ SUPPORTED_FORMATS →
      scan_existing_files env [(root, file)] st =
        transcribe_file env (root ++ "/" ++ file) st) ∧
    (∀ dir name, '.' ∉ name.data →
      on_created env false (dir ++ "/" ++ name) st =
        (st, Except.ok ())) := by
  refine ⟨fun file h => extTest_no_dot file h, ?_, ?_⟩
  · intro root file hs
    simp only [scan_existing_files]
    rw [if_pos hs]
    rcases ht : transcribe_file env (root ++ "/" ++ file) st with ⟨st2, r⟩
    cases r with
    | ok u => rfl
    | error e => rfl
  · intro dir name hd
    have hsl : '/' ∈ (extTest (dir ++ "/" ++ name)).data :=
      slash_mem_extTest_join dir name hd
    unfold on_created
    rw [if_neg (by simp), if_neg (not_supported_of_slash _ hsl)]

theorem claim_C10_witness :
    extTest "mp3" = strLower "mp3" ∧
    scan_existing_files envDemo [("./media", "mp3")] st0 =
      transcribe_file envDemo ("./media" ++ "/" ++ "mp3") st0 ∧
    on_created envDemo false ("./media" ++ "/" ++ "mp3") st0 =
      (st0, Except.ok ()) :=
  ⟨(claim_C10_ext_test_amended envDemo st0).1 "mp3" (by decide),
   (claim_C10_ext_test_amended envDemo st0).2.1 "./media" "mp3" (by decide),
   (claim_C10_ext_test_amended envDemo st0).2.2 "./media" "mp3"
     (by decide)⟩
